import Mathlib

/-!
Shallow embedding of the text-preprocessing pipeline of the repository
(`text-preprocessing.ipynb`): `tokenize`, `count_corpus`, the `Vocab` class and
`load_corpus_time_machine`, together with proofs of the specification's claims
about them.

Python-specific conventions modelled explicitly:
* a Python `dict` is an association list kept in reverse insertion order, so
  `List.lookup` returns the most recently written binding (dict overwrite
  semantics);
* Python list indexing `l[i]` accepts any integer `i` with `-len(l) <= i < len(l)`
  (negative indices address from the end) and raises `IndexError` otherwise,
  modelled as an `Option`;
* `sorted(xs, key=..., reverse=True)` is a stable descending sort, modelled by a
  stable insertion sort (a stable sort for a fixed key is unique, so the two
  agree on every input).
-/

namespace TextPreprocessing

/-- Python `line.split()`: split on runs of whitespace, dropping empty pieces. -/
def pySplit (line : String) : List String :=
  (line.split Char.isWhitespace).filter (fun s => s ≠ "")

/-- Python `list(line)`: the characters of the line as one-character strings. -/
def charTokens (line : String) : List String :=
  line.toList.map Char.toString

/-- `tokenize(lines, token)` from the notebook: `'word'` splits each line on
whitespace, `'char'` splits each line into characters, and any other mode prints
`'错误：未知词元类型：' + token` and returns no token lists (Python `None`),
modelled as `Except.error` carrying the printed message. -/
def tokenize (lines : List String) (token : String) : Except String (List (List String)) :=
  if token = "word" then Except.ok (lines.map pySplit)
  else if token = "char" then Except.ok (lines.map charTokens)
  else Except.error ("错误：未知词元类型：" ++ token)

/-- The distinct elements of a list in first-occurrence order: the iteration
order of `collections.Counter` built from the list. -/
def firstOccs : List String → List String
  | [] => []
  | t :: rest => t :: (firstOccs rest).filter (fun s => s ≠ t)

/-- `collections.Counter(tokens).items()`: every distinct token paired with its
exact multiplicity, in first-occurrence order. -/
def counterItems (tokens : List String) : List (String × Nat) :=
  (firstOccs tokens).map (fun t => (t, tokens.count t))

/-- `count_corpus(tokens)` on a 2D token list: flatten the lines into one token
list, then count.  (On an already flat list the notebook counts directly, which
is `counterItems` itself.) -/
def count_corpus (tokens : List (List String)) : List (String × Nat) :=
  counterItems tokens.flatten

/-- Stable insertion of one `(token, freq)` entry into a frequency-descending
list: skip entries with strictly larger frequency, stop at the first entry with
frequency `≤` the inserted one (so earlier entries win ties). -/
def insertDesc (x : String × Nat) : List (String × Nat) → List (String × Nat)
  | [] => [x]
  | y :: ys => if x.2 < y.2 then y :: insertDesc x ys else x :: y :: ys

/-- `sorted(counter.items(), key=lambda x: x[1], reverse=True)`: stable sort of
the counter items, descending by frequency. -/
def sortedByFreqDesc : List (String × Nat) → List (String × Nat)
  | [] => []
  | x :: xs => insertDesc x (sortedByFreqDesc xs)

/-- `{token: idx for idx, token in enumerate(l)}` starting at index `k`:
bindings in reverse insertion order so that `List.lookup` returns the binding a
Python dict would (the last written one). -/
def enumDict (k : Nat) : List String → List (String × Nat)
  | [] => []
  | t :: rest => enumDict (k + 1) rest ++ [(t, k)]

/-- The state built by `Vocab.__init__`. -/
structure Vocab where
  token_freqs : List (String × Nat)
  idx_to_token : List String
  token_to_idx : List (String × Nat)

/-- The loop `for token, freq in self._token_freqs:` of `Vocab.__init__`:
`break` on the first entry with `freq < min_freq`; otherwise, if the token is
not yet a key of `token_to_idx`, append it to `idx_to_token` and bind it to
`len(self.idx_to_token) - 1`. -/
def vocabLoop (min_freq : Int) :
    List (String × Nat) → List String → List (String × Nat) →
    List String × List (String × Nat)
  | [], l, d => (l, d)
  | (token, freq) :: rest, l, d =>
    if (freq : Int) < min_freq then (l, d)
    else if (d.lookup token).isSome then
      vocabLoop min_freq rest l d
    else
      vocabLoop min_freq rest (l ++ [token]) ((token, (l ++ [token]).length - 1) :: d)

/-- `Vocab.__init__(tokens, min_freq, reserved_tokens)` on an already flattened
token list (`count_corpus` flattens 2D input before counting, so a 2D call is
`Vocab.init tokens.flatten`; `tokens=None` is `Vocab.init []`). -/
def Vocab.init (tokens : List String) (min_freq : Int) (reserved_tokens : List String) :
    Vocab :=
  let token_freqs := sortedByFreqDesc (counterItems tokens)
  let idx0 := "<unk>" :: reserved_tokens
  let r := vocabLoop min_freq token_freqs idx0 (enumDict 0 idx0)
  ⟨token_freqs, r.1, r.2⟩

/-- `Vocab.__len__`. -/
def Vocab.len (v : Vocab) : Nat := v.idx_to_token.length

/-- The `unk` property: the unknown-token index, always `0`. -/
def Vocab.unk : Nat := 0

/-- `Vocab.__getitem__` on a single token:
`self.token_to_idx.get(tokens, self.unk)` — total, defaulting to `unk`. -/
def Vocab.getitem (v : Vocab) (token : String) : Nat :=
  (v.token_to_idx.lookup token).getD Vocab.unk

/-- Python list indexing `l[i]` for an `int` index: a negative index `i` with
`-len(l) ≤ i` addresses `l[len(l) + i]`; any other out-of-range index raises
`IndexError`, modelled as `none`. -/
def pyGet (l : List String) (i : Int) : Option String :=
  if 0 ≤ i then l.get? i.toNat
  else if 0 ≤ (l.length : Int) + i then l.get? ((l.length : Int) + i).toNat
  else none

/-- `Vocab.to_tokens` on a single index: `self.idx_to_token[indices]`. -/
def Vocab.to_tokens (v : Vocab) (index : Int) : Option String :=
  pyGet v.idx_to_token index

/-- Frequency of one token in the corpus: exact multiset count. -/
def freqOf (tokens : List String) (t : String) : Nat := tokens.count t

/-- Number of distinct tokens of the corpus whose frequency reaches `min_freq`. -/
def numRetained (tokens : List String) (min_freq : Int) : Nat :=
  ((firstOccs tokens).filter (fun t => decide (min_freq ≤ (freqOf tokens t : Int)))).length

/-- `load_corpus_time_machine(max_tokens)`, parameterized by the list of
normalized lines that `read_time_machine()` produced from the resource:
tokenize in `'char'` mode, build the vocabulary from the full corpus, map every
token of the flattened corpus to its index, and truncate the index list to
`max_tokens` when `max_tokens > 0`. -/
def load_corpus_time_machine (lines : List String) (max_tokens : Int) :
    List Nat × Vocab :=
  let tokens := lines.map charTokens
  let vocab := Vocab.init tokens.flatten 0 []
  let corpus := tokens.flatten.map (fun token => vocab.getitem token)
  let corpus := if 0 < max_tokens then corpus.take max_tokens.toNat else corpus
  (corpus, vocab)

/-- The assignment order the specification describes for `index_to_token`,
written from the spec's words (to be compared with the code's `Vocab.init`):
the unknown marker at index 0, then the reserved tokens in caller-supplied
order, then the ranked tokens in descending-frequency order, with assignment
terminating at the first entry whose frequency is below `min_freq`. -/
def specAssignment (tokens : List String) (min_freq : Int) (reserved_tokens : List String) :
    List String :=
  "<unk>" :: reserved_tokens ++
    ((sortedByFreqDesc (counterItems tokens)).takeWhile
      (fun p => decide (min_freq ≤ (p.2 : Int)))).map Prod.fst

/-! ### Association-list (dict) lemmas -/

theorem lookup_cons_self {k : String} {v : Nat} {d : List (String × Nat)} :
    ((k, v) :: d).lookup k = some v := by
  simp [List.lookup]

theorem lookup_cons_ne {t k : String} {v : Nat} {d : List (String × Nat)}
    (h : t ≠ k) : ((k, v) :: d).lookup t = d.lookup t := by
  have hb : (t == k) = false := beq_eq_false_iff_ne.mpr h
  simp [List.lookup, hb]

theorem mem_of_lookup_eq_some {d : List (String × Nat)} {t : String} {i : Nat}
    (h : d.lookup t = some i) : (t, i) ∈ d := by
  induction d with
  | nil => simp [List.lookup] at h
  | cons p rest ih =>
    obtain ⟨k, v⟩ := p
    by_cases htk : t = k
    · subst htk
      rw [lookup_cons_self] at h
      injection h with h
      subst h
      exact List.mem_cons_self _ _
    · rw [lookup_cons_ne htk] at h
      exact List.mem_cons_of_mem _ (ih h)

theorem lookup_append_of_some {A : List (String × Nat)} (B : List (String × Nat))
    {t : String} {i : Nat} (h : A.lookup t = some i) : (A ++ B).lookup t = some i := by
  induction A with
  | nil => simp [List.lookup] at h
  | cons p rest ih =>
    obtain ⟨k, v⟩ := p
    by_cases htk : t = k
    · subst htk
      rw [lookup_cons_self] at h
      rw [List.cons_append, lookup_cons_self]
      exact h
    · rw [lookup_cons_ne htk] at h
      rw [List.cons_append, lookup_cons_ne htk]
      exact ih h

theorem lookup_append_of_none {A : List (String × Nat)} (B : List (String × Nat))
    {t : String} (h : A.lookup t = none) : (A ++ B).lookup t = B.lookup t := by
  induction A with
  | nil => simp
  | cons p rest ih =>
    obtain ⟨k, v⟩ := p
    by_cases htk : t = k
    · subst htk
      rw [lookup_cons_self] at h
      exact absurd h (by simp)
    · rw [lookup_cons_ne htk] at h
      rw [List.cons_append, lookup_cons_ne htk]
      exact ih h

/-! ### `enumDict` lemmas -/

theorem enumDict_mem (k : Nat) {l : List String} {p : String × Nat}
    (h : p ∈ enumDict k l) : k ≤ p.2 ∧ l.get? (p.2 - k) = some p.1 := by
  induction l generalizing k with
  | nil => simp [enumDict] at h
  | cons t rest ih =>
    rw [enumDict, List.mem_append] at h
    rcases h with h | h
    · obtain ⟨hk, hget⟩ := ih (k + 1) h
      refine ⟨by omega, ?_⟩
      have hidx : p.2 - k = (p.2 - (k + 1)) + 1 := by omega
      rw [hidx, List.get?_cons_succ]
      exact hget
    · simp at h
      subst h
      simp

theorem enumDict_lookup_none (k : Nat) {l : List String} {t : String}
    (h : t ∉ l) : (enumDict k l).lookup t = none := by
  induction l generalizing k with
  | nil => simp [enumDict, List.lookup]
  | cons u rest ih =>
    rw [enumDict]
    have hne : t ≠ u := fun he => h (he ▸ List.mem_cons_self u rest)
    have hrest : t ∉ rest := fun hm => h (List.mem_cons_of_mem _ hm)
    rw [lookup_append_of_none _ (ih (k + 1) hrest), lookup_cons_ne hne]
    simp [List.lookup]

theorem enumDict_lookup_isSome (k : Nat) {l : List String} {t : String}
    (h : t ∈ l) : ((enumDict k l).lookup t).isSome := by
  induction l generalizing k with
  | nil => simp at h
  | cons u rest ih =>
    rw [enumDict]
    by_cases hm : t ∈ rest
    · obtain ⟨i, hi⟩ := Option.isSome_iff_exists.mp (ih (k + 1) hm)
      rw [lookup_append_of_some _ hi]
      simp
    · have htu : t = u := by
        rcases List.mem_cons.mp h with he | hm'
        · exact he
        · exact absurd hm' hm
      subst htu
      rw [lookup_append_of_none _ (enumDict_lookup_none (k + 1) hm), lookup_cons_self]
      simp

theorem enumDict_lookup_nodup {l : List String} (hnd : l.Nodup) :
    ∀ (k i : Nat) {t : String}, l.get? i = some t →
      (enumDict k l).lookup t = some (k + i) := by
  induction l with
  | nil => intro k i t h; simp at h
  | cons u rest ih =>
    intro k i t h
    rw [enumDict]
    cases i with
    | zero =>
      rw [List.get?_cons_zero] at h
      injection h with h
      subst h
      have hmem : u ∉ rest := (List.nodup_cons.mp hnd).1
      rw [lookup_append_of_none _ (enumDict_lookup_none (k + 1) hmem), lookup_cons_self]
      congr 1
    | succ i =>
      rw [List.get?_cons_succ] at h
      have hrec := ih (List.nodup_cons.mp hnd).2 (k + 1) i h
      rw [lookup_append_of_some _ hrec]
      congr 1
      omega

/-! ### `firstOccs` and `counterItems` lemmas -/

theorem mem_firstOccs {t : String} {l : List String} : t ∈ firstOccs l ↔ t ∈ l := by
  induction l with
  | nil => simp [firstOccs]
  | cons u rest ih =>
    rw [firstOccs]
    constructor
    · intro h
      rcases List.mem_cons.mp h with he | hf
      · exact he ▸ List.mem_cons_self u rest
      · exact List.mem_cons_of_mem _ (ih.mp (List.mem_of_mem_filter hf))
    · intro h
      rcases List.mem_cons.mp h with he | hm
      · exact he ▸ List.mem_cons_self _ _
      · by_cases htu : t = u
        · exact htu ▸ List.mem_cons_self _ _
        · refine List.mem_cons_of_mem _ (List.mem_filter.mpr ⟨ih.mpr hm, ?_⟩)
          simp [htu]

theorem nodup_firstOccs (l : List String) : (firstOccs l).Nodup := by
  induction l with
  | nil => simp [firstOccs]
  | cons u rest ih =>
    rw [firstOccs]
    refine List.nodup_cons.mpr ⟨?_, ih.filter _⟩
    intro hmem
    have := (List.mem_filter.mp hmem).2
    simp at this

theorem counterItems_fst (tokens : List String) :
    (counterItems tokens).map Prod.fst = firstOccs tokens := by
  rw [counterItems, List.map_map]
  exact List.map_id _

theorem counterItems_mem {tokens : List String} {p : String × Nat}
    (h : p ∈ counterItems tokens) : p.1 ∈ tokens ∧ p.2 = freqOf tokens p.1 := by
  rw [counterItems] at h
  obtain ⟨t, htm, hte⟩ := List.mem_map.mp h
  cases hte
  exact ⟨mem_firstOccs.mp htm, rfl⟩

theorem counterItems_mem_of {tokens : List String} {t : String} (h : t ∈ tokens) :
    (t, freqOf tokens t) ∈ counterItems tokens := by
  rw [counterItems]
  exact List.mem_map.mpr ⟨t, mem_firstOccs.mpr h, rfl⟩

theorem counterItems_nodup_fst (tokens : List String) :
    ((counterItems tokens).map Prod.fst).Nodup := by
  rw [counterItems_fst]
  exact nodup_firstOccs tokens

/-! ### Sorting lemmas: `sortedByFreqDesc` permutes its input and is
frequency-descending -/

theorem perm_insertDesc (x : String × Nat) (l : List (String × Nat)) :
    List.Perm (insertDesc x l) (x :: l) := by
  induction l with
  | nil => rfl
  | cons y ys ih =>
    rw [insertDesc]
    by_cases h : x.2 < y.2
    · rw [if_pos h]
      exact ((ih.cons y).trans (List.Perm.swap x y ys))
    · rw [if_neg h]

theorem perm_sortedByFreqDesc (l : List (String × Nat)) :
    List.Perm (sortedByFreqDesc l) l := by
  induction l with
  | nil => rfl
  | cons x xs ih =>
    rw [sortedByFreqDesc]
    exact (perm_insertDesc x (sortedByFreqDesc xs)).trans (ih.cons x)

theorem sorted_insertDesc {x : String × Nat} {l : List (String × Nat)}
    (h : l.Pairwise (fun a b => b.2 ≤ a.2)) :
    (insertDesc x l).Pairwise (fun a b => b.2 ≤ a.2) := by
  induction l with
  | nil => simp [insertDesc]
  | cons y ys ih =>
    rw [insertDesc]
    obtain ⟨hy, hys⟩ := List.pairwise_cons.mp h
    by_cases hlt : x.2 < y.2
    · rw [if_pos hlt]
      refine List.pairwise_cons.mpr ⟨?_, ih hys⟩
      intro z hz
      have hmem := (perm_insertDesc x ys).mem_iff.mp hz
      rcases List.mem_cons.mp hmem with he | hm
      · exact he ▸ Nat.le_of_lt hlt
      · exact hy z hm
    · rw [if_neg hlt]
      refine List.pairwise_cons.mpr ⟨?_, h⟩
      intro z hz
      rcases List.mem_cons.mp hz with he | hm
      · exact he ▸ Nat.le_of_not_lt hlt
      · exact Nat.le_trans (hy z hm) (Nat.le_of_not_lt hlt)

theorem sorted_sortedByFreqDesc (l : List (String × Nat)) :
    (sortedByFreqDesc l).Pairwise (fun a b => b.2 ≤ a.2) := by
  induction l with
  | nil => simp [sortedByFreqDesc]
  | cons x xs ih => exact sorted_insertDesc ih

/-! ### `vocabLoop` invariants -/

/-- An existing binding of `token_to_idx` is never overwritten by the loop. -/
theorem vocabLoop_lookup_mono (mf : Int) :
    ∀ (tf : List (String × Nat)) (l : List String) (d : List (String × Nat))
      {t : String} {i : Nat}, d.lookup t = some i →
      ((vocabLoop mf tf l d).2).lookup t = some i := by
  intro tf
  induction tf with
  | nil => intro l d t i h; exact h
  | cons p rest ih =>
    intro l d t i h
    obtain ⟨token, freq⟩ := p
    rw [vocabLoop]
    by_cases hbrk : (freq : Int) < mf
    · rw [if_pos hbrk]
      exact h
    · rw [if_neg hbrk]
      by_cases hmem : (d.lookup token).isSome
      · rw [if_pos hmem]
        exact ih l d h
      · rw [if_neg hmem]
        refine ih _ _ ?_
        have hne : t ≠ token := by
          intro he
          subst he
          rw [h] at hmem
          exact hmem rfl
        rw [lookup_cons_ne hne]
        exact h

/-- Every binding of `token_to_idx` points at the position of its own token in
`idx_to_token` (sound lookup), preserved by the loop. -/
theorem vocabLoop_sound (mf : Int) :
    ∀ (tf : List (String × Nat)) (l : List String) (d : List (String × Nat)),
      (∀ p ∈ d, l.get? p.2 = some p.1) →
      ∀ p ∈ (vocabLoop mf tf l d).2, ((vocabLoop mf tf l d).1).get? p.2 = some p.1 := by
  intro tf
  induction tf with
  | nil => intro l d h; exact h
  | cons q rest ih =>
    intro l d h
    obtain ⟨token, freq⟩ := q
    rw [vocabLoop]
    by_cases hbrk : (freq : Int) < mf
    · rw [if_pos hbrk]
      exact h
    · rw [if_neg hbrk]
      by_cases hmem : (d.lookup token).isSome
      · rw [if_pos hmem]
        exact ih l d h
      · rw [if_neg hmem]
        refine ih _ _ ?_
        intro p hp
        have hlen : (l ++ [token]).length - 1 = l.length := by
          simp
        rcases List.mem_cons.mp hp with he | hm
        · subst he
          rw [hlen]
          exact List.get?_concat_length l token
        · have hget := h p hm
          have hlt : p.2 < l.length := (List.get?_eq_some.mp hget).1
          rw [List.get?_append hlt]
          exact hget

/-- Every entry of `idx_to_token` is a key of `token_to_idx`, preserved by the
loop. -/
theorem vocabLoop_keys (mf : Int) :
    ∀ (tf : List (String × Nat)) (l : List String) (d : List (String × Nat)),
      (∀ t ∈ l, (d.lookup t).isSome) →
      ∀ t ∈ (vocabLoop mf tf l d).1, (((vocabLoop mf tf l d).2).lookup t).isSome := by
  intro tf
  induction tf with
  | nil => intro l d h; exact h
  | cons q rest ih =>
    intro l d h
    obtain ⟨token, freq⟩ := q
    rw [vocabLoop]
    by_cases hbrk : (freq : Int) < mf
    · rw [if_pos hbrk]
      exact h
    · rw [if_neg hbrk]
      by_cases hmem : (d.lookup token).isSome
      · rw [if_pos hmem]
        exact ih l d h
      · rw [if_neg hmem]
        refine ih _ _ ?_
        intro t ht
        rcases List.mem_append.mp ht with hm | he
        · by_cases hne : t = token
          · subst hne
            rw [lookup_cons_self]
            simp
          · rw [lookup_cons_ne hne]
            exact h t hm
        · simp at he
          subst he
          rw [lookup_cons_self]
          simp

/-- A token whose frequency reaches `min_freq` ends up as a key of
`token_to_idx`: the `break` cannot fire before its entry is reached, because
the ranked list is frequency-descending. -/
theorem vocabLoop_mem_keys (mf : Int) :
    ∀ (tf : List (String × Nat)) (l : List String) (d : List (String × Nat)),
      tf.Pairwise (fun a b => b.2 ≤ a.2) →
      ∀ {t : String} {f : Nat}, (t, f) ∈ tf → mf ≤ (f : Int) →
      (((vocabLoop mf tf l d).2).lookup t).isSome := by
  intro tf
  induction tf with
  | nil =>
    intro l d _ t f hmem _
    simp at hmem
  | cons q rest ih =>
    intro l d hsort t f hmem hf
    obtain ⟨token, freq⟩ := q
    obtain ⟨hhead, hrest⟩ := List.pairwise_cons.mp hsort
    rw [vocabLoop]
    rcases List.mem_cons.mp hmem with he | hm
    · injection he with he1 he2
      subst he1
      subst he2
      rw [if_neg (by omega : ¬ ((f : Int) < mf))]
      by_cases hd : (d.lookup t).isSome
      · rw [if_pos hd]
        obtain ⟨i, hi⟩ := Option.isSome_iff_exists.mp hd
        rw [vocabLoop_lookup_mono mf rest l d hi]
        simp
      · rw [if_neg hd]
        rw [vocabLoop_lookup_mono mf rest _ _ lookup_cons_self]
        simp
    · have hle : f ≤ freq := hhead (t, f) hm
      rw [if_neg (by omega : ¬ ((freq : Int) < mf))]
      by_cases hd : (d.lookup token).isSome
      · rw [if_pos hd]
        exact ih l d hrest hm hf
      · rw [if_neg hd]
        exact ih _ _ hrest hm hf

/-- Size of the final `idx_to_token`: when the qualifying tokens are not yet
keys and the ranked list is frequency-descending with distinct tokens, the loop
appends exactly one entry per ranked token whose frequency reaches `min_freq`. -/
theorem vocabLoop_length (mf : Int) :
    ∀ (tf : List (String × Nat)) (l : List String) (d : List (String × Nat)),
      tf.Pairwise (fun a b => b.2 ≤ a.2) →
      (tf.map Prod.fst).Nodup →
      (∀ p ∈ tf, mf ≤ (p.2 : Int) → d.lookup p.1 = none) →
      ((vocabLoop mf tf l d).1).length
        = l.length + (tf.filter (fun p => decide (mf ≤ (p.2 : Int)))).length := by
  intro tf
  induction tf with
  | nil =>
    intro l d _ _ _
    simp [vocabLoop]
  | cons q rest ih =>
    intro l d hsort hnd hnew
    obtain ⟨token, freq⟩ := q
    obtain ⟨hhead, hrest⟩ := List.pairwise_cons.mp hsort
    rw [vocabLoop]
    by_cases hbrk : (freq : Int) < mf
    · rw [if_pos hbrk]
      have hnil : ((token, freq) :: rest).filter (fun p => decide (mf ≤ (p.2 : Int))) = [] := by
        rw [List.filter_eq_nil]
        intro p hp
        rcases List.mem_cons.mp hp with he | hm
        · subst he
          simp
          omega
        · have := hhead p hm
          simp
          omega
      rw [hnil]
      simp
    · rw [if_neg hbrk]
      have hqual : mf ≤ ((freq : Nat) : Int) := by omega
      have hdnone : d.lookup token = none :=
        hnew (token, freq) (List.mem_cons_self _ _) hqual
      have hd : ¬ (d.lookup token).isSome := by
        rw [hdnone]
        simp
      rw [if_neg hd]
      have hnotin : token ∉ rest.map Prod.fst := (List.nodup_cons.mp (by simpa using hnd)).1
      have hnew' : ∀ p ∈ rest, mf ≤ (p.2 : Int) →
          (((token, (l ++ [token]).length - 1) :: d).lookup p.1) = none := by
        intro p hp hq
        have hne : p.1 ≠ token := by
          intro he
          exact hnotin (he ▸ List.mem_map_of_mem Prod.fst hp)
        rw [lookup_cons_ne hne]
        exact hnew p (List.mem_cons_of_mem _ hp) hq
      rw [ih (l ++ [token]) _ hrest (List.nodup_cons.mp (by simpa using hnd)).2 hnew']
      rw [List.filter_cons_of_pos]
      · simp
        omega
      · simp
        omega

/-- Joint loop invariant for the vocabulary's bidirectional-map property:
`idx_to_token` stays duplicate-free and `token_to_idx` maps the token at
position `i` of `idx_to_token` to `i`. -/
theorem vocabLoop_inverse (mf : Int) :
    ∀ (tf : List (String × Nat)) (l : List String) (d : List (String × Nat)),
      l.Nodup →
      (∀ t ∈ l, (d.lookup t).isSome) →
      (∀ (i : Nat) (t : String), l.get? i = some t → d.lookup t = some i) →
      ((vocabLoop mf tf l d).1).Nodup ∧
      (∀ (i : Nat) (t : String), ((vocabLoop mf tf l d).1).get? i = some t →
        ((vocabLoop mf tf l d).2).lookup t = some i) := by
  intro tf
  induction tf with
  | nil =>
    intro l d hnd _ hinv
    exact ⟨hnd, hinv⟩
  | cons q rest ih =>
    intro l d hnd hkeys hinv
    obtain ⟨token, freq⟩ := q
    rw [vocabLoop]
    by_cases hbrk : (freq : Int) < mf
    · rw [if_pos hbrk]
      exact ⟨hnd, hinv⟩
    · rw [if_neg hbrk]
      by_cases hd : (d.lookup token).isSome
      · rw [if_pos hd]
        exact ih l d hnd hkeys hinv
      · rw [if_neg hd]
        have htok : token ∉ l := by
          intro hm
          exact hd (hkeys token hm)
        have hlen : (l ++ [token]).length - 1 = l.length := by simp
        refine ih _ _ ?_ ?_ ?_
        · rw [List.nodup_append]
          refine ⟨hnd, List.nodup_singleton token, ?_⟩
          intro a ha hb
          simp at hb
          subst hb
          exact htok ha
        · intro t ht
          rcases List.mem_append.mp ht with hm | he
          · by_cases hne : t = token
            · subst hne
              rw [lookup_cons_self]
              simp
            · rw [lookup_cons_ne hne]
              exact hkeys t hm
          · simp at he
            subst he
            rw [lookup_cons_self]
            simp
        · intro i t hget
          have hb : i < l.length + 1 := by
            have := (List.get?_eq_some.mp hget).1
            simpa using this
          rcases Nat.lt_succ_iff_lt_or_eq.mp hb with hlt | heq
          · rw [List.get?_append hlt] at hget
            have hne : t ≠ token := by
              intro he
              subst he
              exact htok (List.get?_mem hget)
            rw [lookup_cons_ne hne]
            exact hinv i t hget
          · subst heq
            rw [List.get?_concat_length] at hget
            injection hget with hget
            subst hget
            rw [lookup_cons_self, hlen]

/-- Structure of the final `idx_to_token`: the initial segment followed by a
sublist of the ranked (frequency-descending) token list, every appended token
reaching `min_freq`. -/
theorem vocabLoop_shape (mf : Int) :
    ∀ (tf : List (String × Nat)) (l : List String) (d : List (String × Nat)),
      ∃ ranked : List (String × Nat),
        ranked.Sublist tf ∧
        (vocabLoop mf tf l d).1 = l ++ ranked.map Prod.fst ∧
        ∀ p ∈ ranked, mf ≤ (p.2 : Int) := by
  intro tf
  induction tf with
  | nil =>
    intro l d
    exact ⟨[], List.Sublist.refl _, by simp [vocabLoop], by simp⟩
  | cons q rest ih =>
    intro l d
    obtain ⟨token, freq⟩ := q
    rw [vocabLoop]
    by_cases hbrk : (freq : Int) < mf
    · rw [if_pos hbrk]
      exact ⟨[], List.nil_sublist _, by simp, by simp⟩
    · rw [if_neg hbrk]
      by_cases hd : (d.lookup token).isSome
      · rw [if_pos hd]
        obtain ⟨ranked, hsub, heq, hge⟩ := ih l d
        exact ⟨ranked, hsub.cons _, heq, hge⟩
      · rw [if_neg hd]
        obtain ⟨ranked, hsub, heq, hge⟩ :=
          ih (l ++ [token]) ((token, (l ++ [token]).length - 1) :: d)
        refine ⟨(token, freq) :: ranked, hsub.cons₂ _, ?_, ?_⟩
        · rw [heq, List.append_assoc]
          simp
        · intro p hp
          rcases List.mem_cons.mp hp with he | hm
          · subst he
            simp
            omega
          · exact hge p hm

/-- Exact shape of the final `idx_to_token` when no token of the ranked list
that reaches `min_freq` is already a key and the ranked tokens are distinct:
the loop appends precisely the maximal qualifying initial segment of the
ranked list, in order — the `break` truncates at the first below-threshold
entry, and no qualifying entry is skipped. -/
theorem vocabLoop_assignment (mf : Int) :
    ∀ (tf : List (String × Nat)) (l : List String) (d : List (String × Nat)),
      (tf.map Prod.fst).Nodup →
      (∀ p ∈ tf, mf ≤ (p.2 : Int) → d.lookup p.1 = none) →
      (vocabLoop mf tf l d).1
        = l ++ (tf.takeWhile (fun p => decide (mf ≤ (p.2 : Int)))).map Prod.fst := by
  intro tf
  induction tf with
  | nil =>
    intro l d _ _
    simp [vocabLoop]
  | cons q rest ih =>
    intro l d hnd hnew
    obtain ⟨token, freq⟩ := q
    rw [vocabLoop]
    by_cases hbrk : (freq : Int) < mf
    · rw [if_pos hbrk]
      have hq : (decide (mf ≤ ((freq : Nat) : Int))) = false :=
        decide_eq_false (by omega)
      rw [List.takeWhile_cons]
      simp [hq]
    · rw [if_neg hbrk]
      have hqual : mf ≤ ((freq : Nat) : Int) := by omega
      have hdnone : d.lookup token = none :=
        hnew (token, freq) (List.mem_cons_self _ _) hqual
      have hd : ¬ (d.lookup token).isSome := by
        rw [hdnone]
        simp
      rw [if_neg hd]
      have hnotin : token ∉ rest.map Prod.fst := (List.nodup_cons.mp (by simpa using hnd)).1
      have hnew' : ∀ p ∈ rest, mf ≤ (p.2 : Int) →
          (((token, (l ++ [token]).length - 1) :: d).lookup p.1) = none := by
        intro p hp hq
        have hne : p.1 ≠ token := by
          intro he
          exact hnotin (he ▸ List.mem_map_of_mem Prod.fst hp)
        rw [lookup_cons_ne hne]
        exact hnew p (List.mem_cons_of_mem _ hp) hq
      rw [ih (l ++ [token]) _ (List.nodup_cons.mp (by simpa using hnd)).2 hnew']
      have hq : (decide (mf ≤ ((freq : Nat) : Int))) = true := decide_eq_true hqual
      rw [List.takeWhile_cons]
      simp [hq, List.append_assoc]

/-! ### Python list indexing -/

/-- `l[i]` on a Python list fails exactly when `i < -len(l)` or `len(l) ≤ i`:
negative indices down to `-len(l)` are resolved from the end, not rejected. -/
theorem pyGet_eq_none_iff (l : List String) (i : Int) :
    pyGet l i = none ↔ (i < -(l.length : Int) ∨ (l.length : Int) ≤ i) := by
  rw [pyGet]
  by_cases h0 : 0 ≤ i
  · rw [if_pos h0, List.get?_eq_none]
    omega
  · rw [if_neg h0]
    by_cases h1 : 0 ≤ (l.length : Int) + i
    · rw [if_pos h1, List.get?_eq_none]
      omega
    · rw [if_neg h1]
      constructor
      · intro _
        omega
      · intro _
        rfl

/-! ### `Vocab.init` corollaries -/

/-- Unfolding of `Vocab.init` into its three fields. -/
theorem init_unfold (tokens : List String) (mf : Int) (rsv : List String) :
    Vocab.init tokens mf rsv =
      ⟨sortedByFreqDesc (counterItems tokens),
       (vocabLoop mf (sortedByFreqDesc (counterItems tokens)) ("<unk>" :: rsv)
          (enumDict 0 ("<unk>" :: rsv))).1,
       (vocabLoop mf (sortedByFreqDesc (counterItems tokens)) ("<unk>" :: rsv)
          (enumDict 0 ("<unk>" :: rsv))).2⟩ := rfl

/-- Soundness of `token_to_idx` in a constructed vocabulary: every binding
points back at the position of its token in `idx_to_token`. -/
theorem init_sound {tokens : List String} {mf : Int} {rsv : List String}
    {t : String} {i : Nat}
    (h : (Vocab.init tokens mf rsv).token_to_idx.lookup t = some i) :
    (Vocab.init tokens mf rsv).idx_to_token.get? i = some t := by
  rw [init_unfold] at h ⊢
  refine vocabLoop_sound mf _ _ _ ?_ (t, i) (mem_of_lookup_eq_some h)
  intro p hp
  have := (enumDict_mem 0 hp).2
  simpa using this

/-- Completeness of `token_to_idx` in a constructed vocabulary: every entry of
`idx_to_token` is a key. -/
theorem init_keys {tokens : List String} {mf : Int} {rsv : List String}
    {t : String} (h : t ∈ (Vocab.init tokens mf rsv).idx_to_token) :
    (((Vocab.init tokens mf rsv).token_to_idx).lookup t).isSome := by
  rw [init_unfold] at h ⊢
  refine vocabLoop_keys mf _ _ _ ?_ t h
  intro u hu
  exact enumDict_lookup_isSome 0 hu

/-- Length of a filtered map: filtering `map f l` by `p` keeps as many elements
as filtering `l` by `p ∘ f`. -/
theorem length_filter_of_map {α β : Type} (f : α → β) (p : β → Bool) :
    ∀ l : List α, ((l.map f).filter p).length = (l.filter (fun a => p (f a))).length := by
  intro l
  induction l with
  | nil => simp
  | cons a rest ih =>
    by_cases hp : p (f a) <;> simp [List.filter_cons, hp, ih]

/-- The ranked list `token_freqs` of a constructed vocabulary is a permutation
of the counter items. -/
theorem init_token_freqs_perm (tokens : List String) (mf : Int) (rsv : List String) :
    List.Perm (Vocab.init tokens mf rsv).token_freqs (counterItems tokens) := by
  rw [init_unfold]
  exact perm_sortedByFreqDesc _

/-! ## The claims -/

/-- C1, counterexample: building a vocabulary from the single token `"<unk>"`
(frequency 1 ≥ min_freq 0, no reserved tokens) yields size 1, not
`1 + 0 + 1 = 2`: the corpus token collides with the unknown marker and is
skipped, so the claimed size formula fails on this input. -/
theorem c1_size_counterexample :
    (Vocab.init ["<unk>"] 0 []).len ≠
      1 + ([] : List String).length + numRetained ["<unk>"] 0 := by
  decide

/-- C1 (amended): provided no corpus token equals the unknown marker `"<unk>"`
or one of the reserved tokens, the size of the constructed vocabulary equals
1 (unknown marker) plus the number of reserved tokens plus the number of
distinct tokens whose frequency is at least `min_freq`. -/
theorem c1_size_formula (tokens : List String) (mf : Int) (rsv : List String)
    (h : ∀ t ∈ tokens, t ∉ ("<unk>" :: rsv)) :
    (Vocab.init tokens mf rsv).len = 1 + rsv.length + numRetained tokens mf := by
  have hperm : List.Perm (sortedByFreqDesc (counterItems tokens)) (counterItems tokens) :=
    perm_sortedByFreqDesc _
  have hsort := sorted_sortedByFreqDesc (counterItems tokens)
  have hnd : ((sortedByFreqDesc (counterItems tokens)).map Prod.fst).Nodup :=
    ((hperm.map Prod.fst).nodup_iff).mpr (counterItems_nodup_fst tokens)
  have hnew : ∀ p ∈ sortedByFreqDesc (counterItems tokens), mf ≤ (p.2 : Int) →
      (enumDict 0 ("<unk>" :: rsv)).lookup p.1 = none := by
    intro p hp _
    have hmem : p.1 ∈ tokens := (counterItems_mem (hperm.mem_iff.mp hp)).1
    exact enumDict_lookup_none 0 (h p.1 hmem)
  have hlen := vocabLoop_length mf (sortedByFreqDesc (counterItems tokens))
    ("<unk>" :: rsv) (enumDict 0 ("<unk>" :: rsv)) hsort hnd hnew
  rw [Vocab.len, init_unfold]
  rw [hlen]
  have hfl : ((sortedByFreqDesc (counterItems tokens)).filter
        (fun p => decide (mf ≤ (p.2 : Int)))).length
      = ((counterItems tokens).filter (fun p => decide (mf ≤ (p.2 : Int)))).length :=
    (hperm.filter _).length_eq
  rw [hfl, List.length_cons]
  rw [numRetained, counterItems, length_filter_of_map]
  rw [Nat.add_comm rsv.length 1]
  rfl

/-- C1 witness: a concrete instance of the amended size formula. -/
theorem c1_size_formula_witness :
    (∀ t ∈ (["a", "b", "a"] : List String), t ∉ ("<unk>" :: ["<pad>"])) ∧
    (Vocab.init ["a", "b", "a"] 2 ["<pad>"]).len
      = 1 + (["<pad>"] : List String).length + numRetained ["a", "b", "a"] 2 :=
  ⟨by decide, c1_size_formula ["a", "b", "a"] 2 ["<pad>"] (by decide)⟩

/-- C2, counterexample: the negative index `-1` is outside `0..len-1`, yet
`to_tokens` returns the unknown marker instead of failing — Python list
indexing resolves negative indices down to `-len` from the end. -/
theorem c2_negative_index_counterexample :
    (Vocab.init [] 0 []).to_tokens (-1) = some "<unk>" := by
  decide

/-- C2 (amended): `to_tokens` fails exactly on indices `i` with
`i < -len(vocab)` or `i ≥ len(vocab)`; a negative index with
`-len(vocab) ≤ i ≤ -1` is resolved from the end of `index_to_token`
(Python negative indexing) and returns a token. -/
theorem c2_to_tokens_bounds (tokens : List String) (mf : Int) (rsv : List String)
    (i : Int) :
    (Vocab.init tokens mf rsv).to_tokens i = none ↔
      (i < -(((Vocab.init tokens mf rsv).len : Int)) ∨
        (((Vocab.init tokens mf rsv).len : Int) ≤ i)) :=
  pyGet_eq_none_iff _ i

/-- C3: on any mode other than `'word'` and `'char'`, `tokenize` produces no
token output and reports the invalid-argument message that names the unknown
mode. -/
theorem c3_unknown_mode (lines : List String) (mode : String)
    (h1 : mode ≠ "word") (h2 : mode ≠ "char") :
    tokenize lines mode = Except.error ("错误：未知词元类型：" ++ mode) := by
  rw [tokenize, if_neg h1, if_neg h2]

/-- C3 witness: the unknown mode `'sentence'` is rejected with the message
naming it. -/
theorem c3_unknown_mode_witness :
    (("sentence" : String) ≠ "word" ∧ ("sentence" : String) ≠ "char") ∧
    tokenize ["the time machine"] "sentence"
      = Except.error "错误：未知词元类型：sentence" :=
  ⟨⟨by decide, by decide⟩, c3_unknown_mode ["the time machine"] "sentence" (by decide) (by decide)⟩

/-- C4: token-to-index lookup is total: a token present in the vocabulary
resolves to the index of its position in `index_to_token`, and a token absent
from the vocabulary resolves to the unknown index 0 — never an error. -/
theorem c4_getitem_total (tokens : List String) (mf : Int) (rsv : List String)
    (t : String) :
    (t ∉ (Vocab.init tokens mf rsv).idx_to_token →
      (Vocab.init tokens mf rsv).getitem t = 0) ∧
    (t ∈ (Vocab.init tokens mf rsv).idx_to_token →
      ((Vocab.init tokens mf rsv).idx_to_token.get?
          ((Vocab.init tokens mf rsv).getitem t) = some t)) := by
  constructor
  · intro habs
    have hnone : (Vocab.init tokens mf rsv).token_to_idx.lookup t = none := by
      cases hl : (Vocab.init tokens mf rsv).token_to_idx.lookup t with
      | none => rfl
      | some i =>
        exact absurd (List.get?_mem (init_sound hl)) habs
    rw [Vocab.getitem, hnone]
    rfl
  · intro hmem
    obtain ⟨i, hi⟩ := Option.isSome_iff_exists.mp (init_keys hmem)
    rw [Vocab.getitem, hi]
    exact init_sound hi

/-- C4 witness: a token absent from the corpus maps to the unknown index 0. -/
theorem c4_getitem_total_witness :
    ("b" ∉ (Vocab.init ["a"] 0 []).idx_to_token) ∧
    (Vocab.init ["a"] 0 []).getitem "b" = 0 :=
  ⟨by decide, (c4_getitem_total ["a"] 0 [] "b").1 (by decide)⟩

/-- C5: round-trip law: a token occurring in the corpus with frequency at
least `min_freq` maps to a valid in-range index, and `to_tokens` at that index
returns the token again. -/
theorem c5_round_trip (tokens : List String) (mf : Int) (rsv : List String)
    (t : String) (h1 : t ∈ tokens) (h2 : mf ≤ (freqOf tokens t : Int)) :
    (Vocab.init tokens mf rsv).getitem t < (Vocab.init tokens mf rsv).len ∧
    (Vocab.init tokens mf rsv).to_tokens ((Vocab.init tokens mf rsv).getitem t)
      = some t := by
  have htf : (t, freqOf tokens t) ∈ sortedByFreqDesc (counterItems tokens) :=
    (perm_sortedByFreqDesc _).mem_iff.mpr (counterItems_mem_of h1)
  have hkey : (((Vocab.init tokens mf rsv).token_to_idx).lookup t).isSome := by
    rw [init_unfold]
    exact vocabLoop_mem_keys mf _ _ _ (sorted_sortedByFreqDesc _) htf h2
  obtain ⟨i, hi⟩ := Option.isSome_iff_exists.mp hkey
  have hget : (Vocab.init tokens mf rsv).idx_to_token.get? i = some t := init_sound hi
  have hidx : (Vocab.init tokens mf rsv).getitem t = i := by
    rw [Vocab.getitem, hi]
    rfl
  have hlt : i < (Vocab.init tokens mf rsv).len := (List.get?_eq_some.mp hget).1
  refine ⟨hidx ▸ hlt, ?_⟩
  rw [hidx, Vocab.to_tokens, pyGet, if_pos (by omega : (0 : Int) ≤ (i : Int))]
  simpa using hget

/-- C5 witness: round-trip on a concrete corpus. -/
theorem c5_round_trip_witness :
    (("a" : String) ∈ (["a", "b", "a"] : List String) ∧
      (1 : Int) ≤ (freqOf ["a", "b", "a"] "a" : Int)) ∧
    ((Vocab.init ["a", "b", "a"] 1 []).getitem "a" < (Vocab.init ["a", "b", "a"] 1 []).len ∧
      (Vocab.init ["a", "b", "a"] 1 []).to_tokens
        ((Vocab.init ["a", "b", "a"] 1 []).getitem "a") = some "a") :=
  ⟨⟨by decide, by decide⟩, c5_round_trip ["a", "b", "a"] 1 [] "a" (by decide) (by decide)⟩

/-- C6, counterexample: on the corpus `["<unk>", "a"]` (both tokens qualify at
`min_freq = 0`, no reserved tokens) the constructed `index_to_token` is
`["<unk>", "a"]`, not the spec's described assignment
`["<unk>", "<unk>", "a"]`: the qualifying corpus token `"<unk>"` collides with
the pre-seeded unknown marker and is skipped, so the claimed assignment order
fails on this input. -/
theorem c6_assignment_counterexample :
    (Vocab.init ["<unk>", "a"] 0 []).idx_to_token ≠ specAssignment ["<unk>", "a"] 0 [] := by
  decide

/-- C6 (amended): provided no corpus token equals the unknown marker `"<unk>"`
or one of the reserved tokens, `index_to_token` is assigned exactly as the
specification describes: the unknown marker at index 0, then the reserved
tokens in caller-supplied order, then all distinct corpus tokens in descending
frequency order, assignment terminating at the first below-threshold token of
the frequency-descending list (so precisely the tokens whose frequency reaches
`min_freq` are assigned, none skipped); in particular, building from
`["a","b","a","c","a","b"]` with `min_freq = 0` and no reserved tokens yields
`index_to_token == ["<unk>","a","b","c"]` and `token_to_index["a"] == 1`. -/
theorem c6_assignment_complete (tokens : List String) (mf : Int) (rsv : List String)
    (h : ∀ t ∈ tokens, t ∉ ("<unk>" :: rsv)) :
    (Vocab.init tokens mf rsv).idx_to_token = specAssignment tokens mf rsv ∧
    ((Vocab.init ["a", "b", "a", "c", "a", "b"] 0 []).idx_to_token
        = ["<unk>", "a", "b", "c"] ∧
      (Vocab.init ["a", "b", "a", "c", "a", "b"] 0 []).getitem "a" = 1) := by
  refine ⟨?_, by decide, by decide⟩
  have hperm : List.Perm (sortedByFreqDesc (counterItems tokens)) (counterItems tokens) :=
    perm_sortedByFreqDesc _
  have hnd : ((sortedByFreqDesc (counterItems tokens)).map Prod.fst).Nodup :=
    ((hperm.map Prod.fst).nodup_iff).mpr (counterItems_nodup_fst tokens)
  have hnew : ∀ p ∈ sortedByFreqDesc (counterItems tokens), mf ≤ (p.2 : Int) →
      (enumDict 0 ("<unk>" :: rsv)).lookup p.1 = none := by
    intro p hp _
    exact enumDict_lookup_none 0 (h p.1 (counterItems_mem (hperm.mem_iff.mp hp)).1)
  have hloop := vocabLoop_assignment mf (sortedByFreqDesc (counterItems tokens))
    ("<unk>" :: rsv) (enumDict 0 ("<unk>" :: rsv)) hnd hnew
  rw [init_unfold]
  rw [specAssignment]
  rw [hloop]

/-- C6 witness: the concrete scenario of the claim satisfies the disjointness
hypothesis and realizes the spec's assignment exactly. -/
theorem c6_assignment_complete_witness :
    (∀ t ∈ (["a", "b", "a", "c", "a", "b"] : List String),
        t ∉ ("<unk>" :: ([] : List String))) ∧
    (Vocab.init ["a", "b", "a", "c", "a", "b"] 0 []).idx_to_token
      = specAssignment ["a", "b", "a", "c", "a", "b"] 0 [] :=
  ⟨by decide, (c6_assignment_complete ["a", "b", "a", "c", "a", "b"] 0 [] (by decide)).1⟩

/-- C7, counterexample: with the reserved-token list `["<unk>"]` the
constructed `index_to_token` is `["<unk>", "<unk>"]`: its entries are not
pairwise distinct and `token_to_index` is not its inverse, so the invariant
fails for this constructed vocabulary. -/
theorem c7_invariant_counterexample :
    ¬ ((Vocab.init [] 0 ["<unk>"]).idx_to_token.Nodup ∧
      ∀ (i : Nat) (t : String),
        (Vocab.init [] 0 ["<unk>"]).idx_to_token.get? i = some t →
        (Vocab.init [] 0 ["<unk>"]).token_to_idx.lookup t = some i) := by
  intro h
  exact absurd h.1 (by decide)

/-- C7 (amended): provided the unknown marker together with the reserved
tokens are pairwise distinct, the entries of `index_to_token` are pairwise
distinct and `token_to_index` is the exact inverse mapping: it maps the token
at every position `i` back to `i`, and every binding points back at its own
position. -/
theorem c7_bijection (tokens : List String) (mf : Int) (rsv : List String)
    (h : ("<unk>" :: rsv).Nodup) :
    (Vocab.init tokens mf rsv).idx_to_token.Nodup ∧
    (∀ (i : Nat) (t : String),
      (Vocab.init tokens mf rsv).idx_to_token.get? i = some t →
      (Vocab.init tokens mf rsv).token_to_idx.lookup t = some i) ∧
    (∀ (t : String) (i : Nat),
      (Vocab.init tokens mf rsv).token_to_idx.lookup t = some i →
      (Vocab.init tokens mf rsv).idx_to_token.get? i = some t) := by
  have hmain := vocabLoop_inverse mf (sortedByFreqDesc (counterItems tokens))
    ("<unk>" :: rsv) (enumDict 0 ("<unk>" :: rsv)) h
    (fun t ht => enumDict_lookup_isSome 0 ht)
    (fun i t hget => by simpa using enumDict_lookup_nodup h 0 i hget)
  refine ⟨?_, ?_, fun t i => init_sound⟩
  · rw [init_unfold]
    exact hmain.1
  · rw [init_unfold]
    exact hmain.2

/-- C7 witness: a concrete vocabulary with distinct reserved tokens is
duplicate-free and maps the token at position 2 back to index 2. -/
theorem c7_bijection_witness :
    (Vocab.init ["a"] 0 ["<pad>"]).idx_to_token.Nodup ∧
    (Vocab.init ["a"] 0 ["<pad>"]).token_to_idx.lookup "a" = some 2 :=
  ⟨(c7_bijection ["a"] 0 ["<pad>"] (by decide)).1,
   (c7_bijection ["a"] 0 ["<pad>"] (by decide)).2.1 2 "a" (by decide)⟩

/-- C8: the returned index sequence has length `min(max_tokens, full corpus
length)` when `max_tokens > 0` and the full corpus length otherwise, while the
returned vocabulary never depends on `max_tokens` (it is built from the full
untruncated corpus). -/
theorem c8_load_corpus_truncation (lines : List String) (mt : Int) :
    ((0 < mt → (load_corpus_time_machine lines mt).1.length
        = min mt.toNat ((lines.map String.length).sum)) ∧
      (mt ≤ 0 → (load_corpus_time_machine lines mt).1.length
        = (lines.map String.length).sum)) ∧
    (load_corpus_time_machine lines mt).2
      = (load_corpus_time_machine lines (-1)).2 := by
  have hfull : ((lines.map charTokens).flatten.map
      (fun token => (Vocab.init (lines.map charTokens).flatten 0 []).getitem token)).length
      = (lines.map String.length).sum := by
    rw [List.length_map, List.length_flatten, List.map_map]
    have hcomp : (List.length ∘ charTokens) = String.length := by
      funext s
      rw [Function.comp_apply, charTokens, List.length_map]
      rfl
    rw [hcomp]
  constructor
  · constructor
    · intro hpos
      rw [load_corpus_time_machine]
      simp only [if_pos hpos]
      rw [List.length_take, hfull]
    · intro hneg
      rw [load_corpus_time_machine]
      simp only [if_neg (by omega : ¬ (0 < mt))]
      exact hfull
  · rfl

/-- C8 witness: truncation to 1 token on a 2-character line. -/
theorem c8_load_corpus_truncation_witness :
    ((0 : Int) < 1) ∧
    (load_corpus_time_machine ["ab"] 1).1.length
      = min (Int.toNat 1) (((["ab"] : List String).map String.length).sum) :=
  ⟨by decide, (c8_load_corpus_truncation ["ab"] 1).1.1 (by decide)⟩

/-- C9: `tokenize` in `'char'` mode maps each line to the list of its
individual characters (including embedded spaces), so each line's token count
equals its character count. -/
theorem c9_char_mode (lines : List String) :
    tokenize lines "char" = Except.ok (lines.map charTokens) ∧
    ∀ line : String, (charTokens line).length = line.length := by
  constructor
  · rw [tokenize, if_neg (by decide : ("char" : String) ≠ "word"), if_pos rfl]
  · intro line
    rw [charTokens, List.length_map]
    rfl

/-- C10: the empty vocabulary (no tokens, no reserved tokens) consists of the
unknown marker only, has size 1, and maps every token to the unknown index 0. -/
theorem c10_empty_vocab :
    (Vocab.init [] 0 []).idx_to_token = ["<unk>"] ∧
    (Vocab.init [] 0 []).len = 1 ∧
    ∀ t : String, (Vocab.init [] 0 []).getitem t = 0 := by
  refine ⟨by decide, by decide, ?_⟩
  intro t
  have hd : (Vocab.init [] 0 []).token_to_idx = [("<unk>", 0)] := rfl
  rw [Vocab.getitem, hd]
  by_cases ht : t = "<unk>"
  · subst ht
    rw [lookup_cons_self]
    rfl
  · rw [lookup_cons_ne ht]
    rfl

end TextPreprocessing
